import Mathlib

/-!
Shallow embedding of the `rcir` ranked-choice instant-runoff library
(`src/lib.rs`) and verification of its specification claims.

Modelling conventions:
* The candidate type `T : Eq + Hash + Debug` becomes `α : Type` with
  `DecidableEq α`.
* `HashSet<T>` (the registered candidate set) becomes a `List α` that is
  `Nodup`; `HashMap<K, V>` becomes an association list `List (K × V)`.
  The Rust hash maps have an unspecified iteration order; the embedding
  fixes it to insertion order (the order of the candidate list), which is
  one admissible order of the nondeterministic original.
* `&mut self` methods become functions returning the updated value next to
  their result; `Result<(), BallotError>` becomes
  `Option (BallotError α)` (`none` = `Ok(())`).
* The two `unwrap()` calls inside `PollRound::next_round` are modelled by
  dedicated constructors (`panicKey` for `results.get_mut(vote).unwrap()`,
  `panicNoLoser` for `loser.unwrap()`/`lowest.unwrap()`) so that claims
  about panic freedom are expressible.
-/

set_option linter.unusedSectionVars false
set_option linter.unusedVariables false

namespace RCIR

variable {α : Type} [DecidableEq α]

/-- Validation errors of `Poll::add_ballot` (enum `BallotError` in
`src/lib.rs`). -/
inductive BallotError (α : Type) where
  | MissingCandidate : α → BallotError α
  | DuplicateCandidate : α → BallotError α
  | ExtraCandidate : α → BallotError α
  deriving DecidableEq

/-- The `Poll` struct: registered candidates, accepted ballots, and the
all-`false` per-candidate map that `add_ballot` clones on each call. -/
structure Poll (α : Type) where
  candidates : List α
  ballots : List (List α)
  candidateMap : List (α × Bool)
  deriving DecidableEq

/-- `Poll::new`: stores the candidate set and builds `candidate_map`
mapping every candidate to `false`. -/
def Poll.new (candidates : List α) : Poll α :=
  { candidates := candidates
    ballots := []
    candidateMap := candidates.map (fun c => (c, false)) }

/-- `hm.get_mut(v)` read half: first entry of the association list whose
key is `v`, if any (models the `HashMap<&T, bool>` lookup). -/
def lookupFlag : List (α × Bool) → α → Option Bool
  | [], _ => none
  | (k, b) :: rest, v => if v = k then some b else lookupFlag rest v

/-- `hm.get_mut(v)` write half: `*available = true` on the found entry. -/
def markSeen : List (α × Bool) → α → List (α × Bool)
  | [], _ => []
  | (k, b) :: rest, v =>
    if v = k then (k, true) :: rest else (k, b) :: markSeen rest v

/-- The first `for &v in &ballot` loop of `Poll::add_ballot`: walk the
ballot, failing with `ExtraCandidate` on unknown entries and
`DuplicateCandidate` on already-seen ones, otherwise flagging the entry. -/
def validateLoop : List (α × Bool) → List α → Except (BallotError α) (List (α × Bool))
  | hm, [] => .ok hm
  | hm, v :: rest =>
    match lookupFlag hm v with
    | none => .error (.ExtraCandidate v)
    | some true => .error (.DuplicateCandidate v)
    | some false => validateLoop (markSeen hm v) rest

/-- The second `for (&k, v) in &hm` loop of `Poll::add_ballot`: report the
first candidate whose flag is still `false`. -/
def scanMissing : List (α × Bool) → Option (BallotError α)
  | [] => none
  | (k, b) :: rest => if b then scanMissing rest else some (.MissingCandidate k)

/-- `Poll::add_ballot`: validate the ballot against a clone of
`candidate_map`; on success push it onto `ballots`.  Returns the Rust
`Result` (as `Option BallotError`) together with the updated poll. -/
def addBallot (p : Poll α) (ballot : List α) : Option (BallotError α) × Poll α :=
  match validateLoop p.candidateMap ballot with
  | .error e => (some e, p)
  | .ok hm =>
    match scanMissing hm with
    | some e => (some e, p)
    | none => (none, { p with ballots := p.ballots ++ [ballot] })

/-- The `PollResult` struct yielded for each completed round. -/
structure PollResult (α : Type) where
  loser : α
  votes : Nat
  results : List (α × Nat)
  round : Nat
  deriving DecidableEq

/-- The `PollRound` struct: surviving candidates, trimmed ballots, and the
number of the previously completed round. -/
structure PollRound (α : Type) where
  candidates : List α
  ballots : List (List α)
  last_round : Nat
  deriving DecidableEq

/-- Outcome of the tally loop (`for ballot in &self.ballots`) inside
`next_round`. -/
inductive TallyOut (α : Type) where
  | panicKey
  | emptyBallot
  | ok (r : List (α × Nat))
  deriving DecidableEq

/-- `results.get_mut(vote)` followed by `*vote_box += 1`: increment the
value of the first entry keyed `v`; `none` when the key is absent (the
Rust code would `unwrap()` a `None` there, i.e. panic). -/
def bumpFirst : List (α × Nat) → α → Option (List (α × Nat))
  | [], _ => none
  | (k, n) :: rest, v =>
    if v = k then some ((k, n + 1) :: rest)
    else (bumpFirst rest v).map (fun r => (k, n) :: r)

/-- The tally loop of `next_round`: for each ballot take its first entry
(`return None` from the whole function when a ballot is empty) and bump
that candidate's tally (`panicKey` when the lookup fails). -/
def tallyLoop : List (α × Nat) → List (List α) → TallyOut α
  | r, [] => .ok r
  | r, ballot :: rest =>
    match ballot.head? with
    | none => .emptyBallot
    | some vote =>
      match bumpFirst r vote with
      | none => .panicKey
      | some r' => tallyLoop r' rest

/-- The loser-selection loop of `next_round` after the first iteration:
keep the current minimum, replacing it only on a strictly smaller tally. -/
def findMin (k : α) (v : Nat) : List (α × Nat) → α × Nat
  | [] => (k, v)
  | (k2, v2) :: rest => if v2 < v then findMin k2 v2 rest else findMin k v rest

/-- The whole loser-selection loop (`lowest`/`loser` start out `None` and
are seeded by the first entry). -/
def selectLoser : List (α × Nat) → Option (α × Nat)
  | [] => none
  | (k, v) :: rest => some (findMin k v rest)

/-- Possible outcomes of one `next_round` call. `done` is Rust's
`return None`; the two panic constructors are the two `unwrap()` sites. -/
inductive RoundStep (α : Type) where
  | panicKey
  | panicNoLoser
  | done
  | step (res : PollResult α) (next : PollRound α)
  deriving DecidableEq

/-- `PollRound::next_round`: zero-initialise the tally over the surviving
candidates, tally every ballot's first preference, select the loser, and
build the `PollResult` plus the next (loser-filtered) state. -/
def nextRound (s : PollRound α) : RoundStep α :=
  match tallyLoop (s.candidates.map (fun c => (c, 0))) s.ballots with
  | .panicKey => .panicKey
  | .emptyBallot => .done
  | .ok results =>
    match selectLoser results with
    | none => .panicNoLoser
    | some (loser, lowest) =>
      .step
        { loser := loser
          votes := lowest
          results := results
          round := s.last_round + 1 }
        { candidates := s.candidates.filter (fun c => decide (c ≠ loser))
          ballots := s.ballots.map (fun b => b.filter (fun c => decide (c ≠ loser)))
          last_round := s.last_round + 1 }

/-- `Poll::start_rounds` / `PollRound::first_round`: the initial round
state holds the candidate list and a clone of the poll's ballots. -/
def startRounds (p : Poll α) : PollRound α :=
  { candidates := p.candidates, ballots := p.ballots, last_round := 0 }

/-- How a finite iteration of `RoundIterator::next` ended. -/
inductive TraceEnd where
  | finished
  | panicked
  | fuelOut
  deriving DecidableEq

/-- Drive `RoundIterator::next` up to `fuel` times, collecting the yielded
`PollResult`s and recording how the iteration ended. -/
def runRounds : Nat → PollRound α → List (PollResult α) × TraceEnd
  | 0, _ => ([], .fuelOut)
  | fuel + 1, s =>
    match nextRound s with
    | .panicKey => ([], .panicked)
    | .panicNoLoser => ([], .panicked)
    | .done => ([], .finished)
    | .step res next =>
      let t := runRounds fuel next
      (res :: t.1, t.2)

/-- The round state reached after `n` successful `next_round` steps
(`none` when some earlier call did not yield a round). -/
def stepN : Nat → PollRound α → Option (PollRound α)
  | 0, s => some s
  | n + 1, s =>
    match nextRound s with
    | .step _ next => stepN n next
    | _ => none

/-- The driver loop over `poll.start_rounds()`: `start_rounds` borrows the
poll immutably and the iterator holds no reference back to it, so the
poll is returned unchanged next to the yielded results. -/
def consumeRounds (p : Poll α) (n : Nat) : List (PollResult α) × Poll α :=
  ((runRounds n (startRounds p)).1, p)

/-- The loser-selection loop of `next_round` iterates `results`, a
freshly seeded `HashMap` built by this very call, so its iteration order
over the tally entries is unspecified and independent for every call.
`nextRoundWith π` makes that order explicit: `π` reorders the tally list
before the loser scan.  The stored `results` mapping is kept in
insertion order — Rust `HashMap` equality is content-based, so the
yielded mapping itself does not depend on the order. -/
def nextRoundWith (π : List (α × Nat) → List (α × Nat)) (s : PollRound α) :
    RoundStep α :=
  match tallyLoop (s.candidates.map (fun c => (c, 0))) s.ballots with
  | .panicKey => .panicKey
  | .emptyBallot => .done
  | .ok results =>
    match selectLoser (π results) with
    | none => .panicNoLoser
    | some (loser, lowest) =>
      .step
        { loser := loser
          votes := lowest
          results := results
          round := s.last_round + 1 }
        { candidates := s.candidates.filter (fun c => decide (c ≠ loser))
          ballots := s.ballots.map (fun b => b.filter (fun c => decide (c ≠ loser)))
          last_round := s.last_round + 1 }

/-- Drive the rounds like `runRounds`, but the call completing round
`n + 1` draws its tally-iteration order from `πs n` (each `next_round`
call owns a fresh `HashMap`, so the order may differ round to round and
pass to pass). -/
def runRoundsWith (πs : Nat → List (α × Nat) → List (α × Nat)) :
    Nat → PollRound α → List (PollResult α) × TraceEnd
  | 0, _ => ([], .fuelOut)
  | fuel + 1, s =>
    match nextRoundWith (πs s.last_round) s with
    | .panicKey => ([], .panicked)
    | .panicNoLoser => ([], .panicked)
    | .done => ([], .finished)
    | .step res next =>
      let t := runRoundsWith πs fuel next
      (res :: t.1, t.2)

/-- An admissible family of iteration orders: each round's reordering is
a permutation of the tally entries (what an arbitrary `HashMap`
iteration order can produce). -/
def IsOrderChoice (πs : Nat → List (α × Nat) → List (α × Nat)) : Prop :=
  ∀ n r, (πs n r).Perm r

/-- A tally list with a strict (hence unique) minimizer — the no-tie
condition under which the loser scan is order-independent. -/
def StrictMin (r : List (α × Nat)) : Prop :=
  ∃ q ∈ r, ∀ q' ∈ r, q' ≠ q → q.2 < q'.2

/-- Well-formedness of a poll as built by `Poll::new`: the candidate list
models a `HashSet` (no duplicates) and `candidate_map` is the all-`false`
map over exactly the candidates. -/
def PollWf (p : Poll α) : Prop :=
  p.candidates.Nodup ∧ p.candidateMap = p.candidates.map (fun c => (c, false))

/-- A ballot that is a permutation of the candidate list: no repeats, no
foreign entries, no omissions. -/
def BallotComplete (cands b : List α) : Prop :=
  b.Nodup ∧ (∀ x ∈ b, x ∈ cands) ∧ (∀ x ∈ cands, x ∈ b)

/-- A poll whose every stored ballot passed `add_ballot` validation. -/
def ValidPoll (p : Poll α) : Prop :=
  PollWf p ∧ ∀ b ∈ p.ballots, BallotComplete p.candidates b

/-- The lockstep invariant of round states: candidates are duplicate-free
and every ballot is a permutation of the surviving candidates. -/
def ValidState (s : PollRound α) : Prop :=
  s.candidates.Nodup ∧ ∀ b ∈ s.ballots, BallotComplete s.candidates b

instance (cands b : List α) : Decidable (BallotComplete cands b) := by
  unfold BallotComplete; exact inferInstance

instance (p : Poll α) : Decidable (PollWf p) := by
  unfold PollWf; exact inferInstance

instance (p : Poll α) : Decidable (ValidPoll p) := by
  unfold ValidPoll; exact inferInstance

instance (s : PollRound α) : Decidable (ValidState s) := by
  unfold ValidState; exact inferInstance

instance (r : List (α × Nat)) : Decidable (StrictMin r) := by
  unfold StrictMin; exact inferInstance

/-! ### Association-list tally lemmas -/

theorem bumpFirst_eq_none (r : List (α × Nat)) (v : α) :
    bumpFirst r v = none ↔ v ∉ r.map Prod.fst := by
  induction r with
  | nil => simp [bumpFirst]
  | cons p rest ih =>
    obtain ⟨k, n⟩ := p
    by_cases h : v = k
    · subst h; simp [bumpFirst]
    · simp [bumpFirst, h, Option.map_eq_none', ih]

theorem bumpFirst_keys (r r' : List (α × Nat)) (v : α)
    (h : bumpFirst r v = some r') : r'.map Prod.fst = r.map Prod.fst := by
  induction r generalizing r' with
  | nil => simp [bumpFirst] at h
  | cons p rest ih =>
    obtain ⟨k, n⟩ := p
    by_cases hv : v = k
    · subst hv
      simp only [bumpFirst, if_true, eq_self_iff_true, Option.some.injEq] at h
      subst h; rfl
    · simp only [bumpFirst, if_neg hv] at h
      cases hb : bumpFirst rest v with
      | none => rw [hb] at h; simp at h
      | some r2 =>
        rw [hb] at h
        simp only [Option.map_some', Option.some.injEq] at h
        subst h
        simp [ih r2 hb]

theorem bumpFirst_sum (r r' : List (α × Nat)) (v : α)
    (h : bumpFirst r v = some r') :
    (r'.map Prod.snd).sum = (r.map Prod.snd).sum + 1 := by
  induction r generalizing r' with
  | nil => simp [bumpFirst] at h
  | cons p rest ih =>
    obtain ⟨k, n⟩ := p
    by_cases hv : v = k
    · subst hv
      simp only [bumpFirst, if_true, eq_self_iff_true, Option.some.injEq] at h
      subst h
      simp [List.sum_cons]
      omega
    · simp only [bumpFirst, if_neg hv] at h
      cases hb : bumpFirst rest v with
      | none => rw [hb] at h; simp at h
      | some r2 =>
        rw [hb] at h
        simp only [Option.map_some', Option.some.injEq] at h
        subst h
        have := ih r2 hb
        simp [List.sum_cons]
        omega

theorem tallyLoop_ok_keys : ∀ (bs : List (List α)) (r r' : List (α × Nat)),
    tallyLoop r bs = .ok r' → r'.map Prod.fst = r.map Prod.fst := by
  intro bs
  induction bs with
  | nil =>
    intro r r' h
    simp only [tallyLoop, TallyOut.ok.injEq] at h
    rw [h]
  | cons b rest ih =>
    intro r r' h
    cases b with
    | nil => simp [tallyLoop] at h
    | cons v t =>
      simp only [tallyLoop, List.head?] at h
      cases hb : bumpFirst r v with
      | none => rw [hb] at h; simp at h
      | some r2 =>
        rw [hb] at h
        rw [ih r2 r' h, bumpFirst_keys r r2 v hb]

theorem tallyLoop_ok_sum : ∀ (bs : List (List α)) (r r' : List (α × Nat)),
    tallyLoop r bs = .ok r' →
    (r'.map Prod.snd).sum = (r.map Prod.snd).sum + bs.length := by
  intro bs
  induction bs with
  | nil =>
    intro r r' h
    simp only [tallyLoop, TallyOut.ok.injEq] at h
    rw [h]; simp
  | cons b rest ih =>
    intro r r' h
    cases b with
    | nil => simp [tallyLoop] at h
    | cons v t =>
      simp only [tallyLoop, List.head?] at h
      cases hb : bumpFirst r v with
      | none => rw [hb] at h; simp at h
      | some r2 =>
        rw [hb] at h
        have h1 := ih r2 r' h
        have h2 := bumpFirst_sum r r2 v hb
        simp only [List.length_cons]
        omega

theorem tallyLoop_no_panic : ∀ (bs : List (List α)) (r : List (α × Nat)),
    (∀ b ∈ bs, ∀ v, b.head? = some v → v ∈ r.map Prod.fst) →
    tallyLoop r bs ≠ .panicKey := by
  intro bs
  induction bs with
  | nil => intro r _ h; simp [tallyLoop] at h
  | cons b rest ih =>
    intro r hv h
    cases b with
    | nil => simp [tallyLoop] at h
    | cons v t =>
      simp only [tallyLoop, List.head?] at h
      have hvmem : v ∈ r.map Prod.fst :=
        hv (v :: t) (List.mem_cons_self _ _) v rfl
      cases hb : bumpFirst r v with
      | none => exact absurd hvmem ((bumpFirst_eq_none r v).mp hb)
      | some r2 =>
        rw [hb] at h
        refine ih r2 ?_ h
        intro b' hb' v' hv'
        rw [bumpFirst_keys r r2 v hb]
        exact hv b' (List.mem_cons_of_mem _ hb') v' hv'

theorem tallyLoop_total : ∀ (bs : List (List α)) (r : List (α × Nat)),
    (∀ b ∈ bs, ∃ v, b.head? = some v ∧ v ∈ r.map Prod.fst) →
    ∃ r', tallyLoop r bs = .ok r' := by
  intro bs
  induction bs with
  | nil => intro r _; exact ⟨r, rfl⟩
  | cons b rest ih =>
    intro r hv
    cases b with
    | nil =>
      obtain ⟨v, hhead, -⟩ := hv [] (List.mem_cons_self _ _)
      simp at hhead
    | cons v0 t =>
      have hvmem : v0 ∈ r.map Prod.fst := by
        obtain ⟨v, hhead, hm⟩ := hv (v0 :: t) (List.mem_cons_self _ _)
        simp only [List.head?, Option.some.injEq] at hhead
        subst hhead
        exact hm
      cases hb : bumpFirst r v0 with
      | none => exact absurd hvmem ((bumpFirst_eq_none r v0).mp hb)
      | some r2 =>
        obtain ⟨r', hr'⟩ := ih r2 (by
          intro b' hb'
          obtain ⟨v', hv1, hv2⟩ := hv b' (List.mem_cons_of_mem _ hb')
          exact ⟨v', hv1, by rw [bumpFirst_keys r r2 v0 hb]; exact hv2⟩)
        refine ⟨r', ?_⟩
        simp only [tallyLoop, List.head?]
        rw [hb]
        exact hr'

/-! ### Loser-selection lemmas -/

theorem findMin_mem : ∀ (rest : List (α × Nat)) (k : α) (v : Nat),
    findMin k v rest ∈ (k, v) :: rest := by
  intro rest
  induction rest with
  | nil => intro k v; simp [findMin]
  | cons p rest ih =>
    intro k v
    obtain ⟨k2, v2⟩ := p
    by_cases h : v2 < v
    · simp only [findMin, if_pos h]
      exact List.mem_cons_of_mem _ (ih k2 v2)
    · simp only [findMin, if_neg h]
      rcases List.mem_cons.mp (ih k v) with h1 | h1
      · exact List.mem_cons.mpr (Or.inl h1)
      · exact List.mem_cons_of_mem _ (List.mem_cons_of_mem _ h1)

theorem findMin_le : ∀ (rest : List (α × Nat)) (k : α) (v : Nat),
    ∀ p ∈ (k, v) :: rest, (findMin k v rest).2 ≤ p.2 := by
  intro rest
  induction rest with
  | nil =>
    intro k v p hp
    simp only [List.mem_singleton] at hp
    subst hp; simp [findMin]
  | cons q rest ih =>
    intro k v p hp
    obtain ⟨k2, v2⟩ := q
    by_cases h : v2 < v
    · simp only [findMin, if_pos h]
      rcases List.mem_cons.mp hp with h1 | h1
      · subst h1
        calc (findMin k2 v2 rest).2 ≤ v2 := ih k2 v2 (k2, v2) (List.mem_cons_self _ _)
          _ ≤ v := Nat.le_of_lt h
      · exact ih k2 v2 p h1
    · simp only [findMin, if_neg h]
      rcases List.mem_cons.mp hp with h1 | h1
      · subst h1; exact ih k v (k, v) (List.mem_cons_self _ _)
      · rcases List.mem_cons.mp h1 with h2 | h2
        · subst h2
          calc (findMin k v rest).2 ≤ v := ih k v (k, v) (List.mem_cons_self _ _)
            _ ≤ v2 := Nat.le_of_not_lt h
        · exact ih k v p (List.mem_cons_of_mem _ h2)

theorem findMin_zero : ∀ (rest : List (α × Nat)) (k : α),
    (∀ p ∈ rest, p.2 = 0) → findMin k 0 rest = (k, 0) := by
  intro rest
  induction rest with
  | nil => intro k _; rfl
  | cons q rest ih =>
    intro k hz
    obtain ⟨k2, v2⟩ := q
    have : v2 = 0 := hz (k2, v2) (List.mem_cons_self _ _)
    subst this
    simp only [findMin, Nat.lt_irrefl, if_neg (Nat.lt_irrefl 0)]
    exact ih k (fun p hp => hz p (List.mem_cons_of_mem _ hp))

theorem selectLoser_some (r : List (α × Nat)) (k : α) (v : Nat)
    (h : selectLoser r = some (k, v)) : (k, v) ∈ r ∧ ∀ p ∈ r, v ≤ p.2 := by
  cases r with
  | nil => simp [selectLoser] at h
  | cons q rest =>
    obtain ⟨k0, v0⟩ := q
    simp only [selectLoser, Option.some.injEq] at h
    constructor
    · rw [← h]; exact findMin_mem rest k0 v0
    · intro p hp
      have := findMin_le rest k0 v0 p hp
      rw [h] at this
      exact this

theorem selectLoser_eq_none (r : List (α × Nat)) :
    selectLoser r = none ↔ r = [] := by
  cases r with
  | nil => simp [selectLoser]
  | cons q rest => simp [selectLoser]

/-! ### Filter lemmas -/

theorem mem_filter_ne (l : List α) (a x : α) :
    x ∈ l.filter (fun c => decide (c ≠ a)) ↔ x ∈ l ∧ x ≠ a := by
  simp [List.mem_filter]

theorem filter_ne_length (l : List α) (a : α) (hnd : l.Nodup) (ha : a ∈ l) :
    (l.filter (fun c => decide (c ≠ a))).length + 1 = l.length := by
  induction l with
  | nil => cases ha
  | cons b t ih =>
    rw [List.nodup_cons] at hnd
    by_cases hb : a = b
    · subst hb
      have ht : t.filter (fun c => decide (c ≠ a)) = t := by
        apply List.filter_eq_self.mpr
        intro c hc
        simp only [decide_eq_true_eq]
        intro hca
        exact hnd.1 (hca ▸ hc)
      have hstep : (a :: t).filter (fun c => decide (c ≠ a)) = t := by
        rw [List.filter_cons, if_neg (by simp)]
        exact ht
      rw [hstep]
      simp
    · have ha' : a ∈ t := by
        rcases List.mem_cons.mp ha with h1 | h1
        · exact absurd h1 hb
        · exact h1
      have hba : (b ≠ a) := fun hh => hb hh.symm
      have := ih hnd.2 ha'
      simp only [List.filter_cons, decide_eq_true_eq]
      rw [if_pos hba]
      simp only [List.length_cons]
      omega

/-! ### Round-step structure lemmas -/

theorem keys_init (cands : List α) :
    ((cands.map (fun c => (c, (0 : Nat)))).map Prod.fst) = cands := by
  induction cands with
  | nil => rfl
  | cons a t ih => simpa using ih

theorem sum_init (cands : List α) :
    ((cands.map (fun c => (c, (0 : Nat)))).map Prod.snd).sum = 0 := by
  induction cands with
  | nil => rfl
  | cons a t ih => simpa using ih

theorem nextRound_step_inv (s : PollRound α) (res : PollResult α) (next : PollRound α)
    (h : nextRound s = .step res next) :
    tallyLoop (s.candidates.map (fun c => (c, 0))) s.ballots = .ok res.results ∧
    selectLoser res.results = some (res.loser, res.votes) ∧
    res.round = s.last_round + 1 ∧
    next.candidates = s.candidates.filter (fun c => decide (c ≠ res.loser)) ∧
    next.ballots = s.ballots.map (fun b => b.filter (fun c => decide (c ≠ res.loser))) ∧
    next.last_round = s.last_round + 1 := by
  unfold nextRound at h
  split at h
  · cases h
  · cases h
  · rename_i r h1
    split at h
    · cases h
    · rename_i l w h2
      cases h
      exact ⟨h1, h2, rfl, rfl, rfl, rfl⟩

theorem nextRound_step_of (s : PollRound α) (r : List (α × Nat)) (l : α) (w : Nat)
    (h1 : tallyLoop (s.candidates.map (fun c => (c, 0))) s.ballots = .ok r)
    (h2 : selectLoser r = some (l, w)) :
    nextRound s = .step
      { loser := l, votes := w, results := r, round := s.last_round + 1 }
      { candidates := s.candidates.filter (fun c => decide (c ≠ l))
        ballots := s.ballots.map (fun b => b.filter (fun c => decide (c ≠ l)))
        last_round := s.last_round + 1 } := by
  unfold nextRound
  simp only [h1, h2]

theorem loser_mem_candidates (s : PollRound α) (res : PollResult α) (next : PollRound α)
    (h : nextRound s = .step res next) : res.loser ∈ s.candidates := by
  obtain ⟨h1, h2, -⟩ := nextRound_step_inv s res next h
  have hkeys : res.results.map Prod.fst = s.candidates := by
    rw [tallyLoop_ok_keys s.ballots _ _ h1, keys_init]
  have hmem := (selectLoser_some res.results res.loser res.votes h2).1
  rw [← hkeys]
  exact List.mem_map_of_mem Prod.fst hmem

theorem nextRound_preserves (s : PollRound α) (res : PollResult α) (next : PollRound α)
    (hv : ValidState s) (h : nextRound s = .step res next) :
    ValidState next ∧ next.ballots.length = s.ballots.length ∧
    next.candidates.length + 1 = s.candidates.length := by
  obtain ⟨h1, h2, hround, hcand, hball, hlast⟩ := nextRound_step_inv s res next h
  obtain ⟨hnd, hbal⟩ := hv
  have hloser := loser_mem_candidates s res next h
  refine ⟨⟨?_, ?_⟩, ?_, ?_⟩
  · rw [hcand]; exact hnd.filter _
  · intro b hb
    rw [hball] at hb
    obtain ⟨b0, hb0, rfl⟩ := List.mem_map.mp hb
    obtain ⟨hb0nd, hb0sub, hb0sup⟩ := hbal b0 hb0
    refine ⟨hb0nd.filter _, ?_, ?_⟩
    · intro x hx
      rw [mem_filter_ne] at hx
      rw [hcand, mem_filter_ne]
      exact ⟨hb0sub x hx.1, hx.2⟩
    · intro x hx
      rw [hcand, mem_filter_ne] at hx
      rw [mem_filter_ne]
      exact ⟨hb0sup x hx.1, hx.2⟩
  · rw [hball]; exact List.length_map _ _
  · rw [hcand]; exact filter_ne_length s.candidates res.loser hnd hloser

/-! ### Validation-map lemmas

Every `candidate_map` clone inside one `add_ballot` call has the shape
`mapFlags cands seen`: keyed by the candidate list, the flag of `c`
recording whether `c` is in the already-walked prefix `seen`. -/

/-- Candidate map keyed by `cands` whose flag for `c` is `c ∈ seen`. -/
def mapFlags (cands seen : List α) : List (α × Bool) :=
  cands.map (fun c => (c, decide (c ∈ seen)))

theorem mapFlags_nil (cands : List α) :
    mapFlags cands [] = cands.map (fun c => (c, false)) := by
  unfold mapFlags
  simp

theorem mapFlags_congr (cands s1 s2 : List α)
    (h : ∀ c, c ∈ s1 ↔ c ∈ s2) : mapFlags cands s1 = mapFlags cands s2 := by
  unfold mapFlags
  induction cands with
  | nil => rfl
  | cons a t ih => simp [ih, h a]

theorem lookupFlag_mapFlags (cands seen : List α) (v : α) :
    lookupFlag (mapFlags cands seen) v =
      if v ∈ cands then some (decide (v ∈ seen)) else none := by
  induction cands with
  | nil => simp [mapFlags, lookupFlag]
  | cons a t ih =>
    simp only [mapFlags, List.map_cons, lookupFlag]
    by_cases h : v = a
    · subst h
      simp
    · rw [if_neg h]
      have hiff : v ∈ a :: t ↔ v ∈ t := by simp [List.mem_cons, h]
      rw [← mapFlags, ih]
      exact (if_congr hiff rfl rfl).symm

theorem markSeen_mapFlags (cands seen : List α) (v : α) (hnd : cands.Nodup) :
    markSeen (mapFlags cands seen) v = mapFlags cands (v :: seen) := by
  induction cands with
  | nil => rfl
  | cons a t ih =>
    rw [List.nodup_cons] at hnd
    by_cases h : v = a
    · subst h
      have hflag : decide (v ∈ v :: seen) = true := by simp
      simp only [mapFlags, List.map_cons, markSeen, if_pos rfl, hflag]
      refine congrArg (List.cons _) ?_
      apply List.map_congr_left
      intro c hc
      have hcv : c ≠ v := fun e => hnd.1 (e ▸ hc)
      simp [List.mem_cons, hcv]
    · have hav : a ≠ v := Ne.symm h
      have hfl : decide (a ∈ v :: seen) = decide (a ∈ seen) := by
        simp [List.mem_cons, hav]
      simp only [mapFlags, List.map_cons, markSeen, if_neg h, hfl]
      refine congrArg (List.cons _) ?_
      exact ih hnd.2

/-! ### `validateLoop` characterizations -/

theorem validateLoop_ok (cands : List α) (hnd : cands.Nodup) :
    ∀ (ballot seen : List α), ballot.Nodup → (∀ x ∈ ballot, x ∈ cands) →
    (∀ x ∈ ballot, x ∉ seen) →
    validateLoop (mapFlags cands seen) ballot = .ok (mapFlags cands (ballot ++ seen)) := by
  intro ballot
  induction ballot with
  | nil => intro seen _ _ _; rfl
  | cons v rest ih =>
    intro seen hbnd hsub hdis
    rw [List.nodup_cons] at hbnd
    have hv : v ∈ cands := hsub v (List.mem_cons_self _ _)
    have hvs : v ∉ seen := hdis v (List.mem_cons_self _ _)
    have hlook : lookupFlag (mapFlags cands seen) v = some false := by
      rw [lookupFlag_mapFlags, if_pos hv]
      simp [hvs]
    simp only [validateLoop, hlook]
    rw [markSeen_mapFlags cands seen v hnd]
    rw [ih (v :: seen) hbnd.2 (fun x hx => hsub x (List.mem_cons_of_mem _ hx))
      (fun x hx => by
        simp only [List.mem_cons]
        push_neg
        exact ⟨fun e => hbnd.1 (e ▸ hx), hdis x (List.mem_cons_of_mem _ hx)⟩)]
    congr 1
    apply mapFlags_congr
    intro c
    simp only [List.mem_append, List.mem_cons]
    tauto

theorem validateLoop_ok_inv (cands : List α) (hnd : cands.Nodup) :
    ∀ (ballot seen : List α) (hm : List (α × Bool)),
    validateLoop (mapFlags cands seen) ballot = .ok hm →
    (∀ x ∈ ballot, x ∈ cands) ∧ ballot.Nodup ∧ (∀ x ∈ ballot, x ∉ seen) ∧
    hm = mapFlags cands (ballot ++ seen) := by
  intro ballot
  induction ballot with
  | nil =>
    intro seen hm h
    simp only [validateLoop, Except.ok.injEq] at h
    refine ⟨by simp, List.nodup_nil, by simp, ?_⟩
    rw [← h, List.nil_append]
  | cons v rest ih =>
    intro seen hm h
    by_cases hv : v ∈ cands
    · by_cases hvs : v ∈ seen
      · have hlook : lookupFlag (mapFlags cands seen) v = some true := by
          rw [lookupFlag_mapFlags, if_pos hv]
          simp [hvs]
        simp only [validateLoop, hlook] at h
        cases h
      · have hlook : lookupFlag (mapFlags cands seen) v = some false := by
          rw [lookupFlag_mapFlags, if_pos hv]
          simp [hvs]
        simp only [validateLoop, hlook] at h
        rw [markSeen_mapFlags cands seen v hnd] at h
        obtain ⟨h1, h2, h3, h4⟩ := ih (v :: seen) hm h
        refine ⟨?_, ?_, ?_, ?_⟩
        · intro x hx
          rcases List.mem_cons.mp hx with rfl | hx'
          · exact hv
          · exact h1 x hx'
        · rw [List.nodup_cons]
          exact ⟨fun hvr => (h3 v hvr) (List.mem_cons_self _ _), h2⟩
        · intro x hx
          rcases List.mem_cons.mp hx with rfl | hx'
          · exact hvs
          · exact fun hxs => h3 x hx' (List.mem_cons_of_mem _ hxs)
        · rw [h4]
          apply mapFlags_congr
          intro c
          simp only [List.mem_append, List.mem_cons]
          tauto
    · have hlook : lookupFlag (mapFlags cands seen) v = none := by
        rw [lookupFlag_mapFlags, if_neg hv]
      simp only [validateLoop, hlook] at h
      cases h

theorem validateLoop_dup (cands : List α) (hnd : cands.Nodup) :
    ∀ (ballot seen : List α), (∀ x ∈ ballot, x ∈ cands) →
    (¬ ballot.Nodup ∨ ∃ v ∈ ballot, v ∈ seen) →
    ∃ d, validateLoop (mapFlags cands seen) ballot = .error (.DuplicateCandidate d) ∧
      ((d ∈ seen ∧ d ∈ ballot) ∨ 2 ≤ ballot.count d) := by
  intro ballot
  induction ballot with
  | nil =>
    intro seen _ hbad
    rcases hbad with h | ⟨v, hv, -⟩
    · exact absurd List.nodup_nil h
    · cases hv
  | cons v rest ih =>
    intro seen hsub hbad
    have hv : v ∈ cands := hsub v (List.mem_cons_self _ _)
    by_cases hvs : v ∈ seen
    · have hlook : lookupFlag (mapFlags cands seen) v = some true := by
        rw [lookupFlag_mapFlags, if_pos hv]
        simp [hvs]
      exact ⟨v, by simp only [validateLoop, hlook],
        Or.inl ⟨hvs, List.mem_cons_self _ _⟩⟩
    · have hlook : lookupFlag (mapFlags cands seen) v = some false := by
        rw [lookupFlag_mapFlags, if_pos hv]
        simp [hvs]
      have hbad' : ¬ rest.Nodup ∨ ∃ w ∈ rest, w ∈ v :: seen := by
        rcases hbad with h | ⟨w, hw, hws⟩
        · rw [List.nodup_cons] at h
          push_neg at h
          by_cases hvr : v ∈ rest
          · exact Or.inr ⟨v, hvr, List.mem_cons_self _ _⟩
          · exact Or.inl (h hvr)
        · rcases List.mem_cons.mp hw with rfl | hw'
          · exact absurd hws hvs
          · exact Or.inr ⟨w, hw', List.mem_cons_of_mem _ hws⟩
      obtain ⟨d, heq, hprop⟩ :=
        ih (v :: seen) (fun x hx => hsub x (List.mem_cons_of_mem _ hx)) hbad'
      refine ⟨d, ?_, ?_⟩
      · simp only [validateLoop, hlook]
        rw [markSeen_mapFlags cands seen v hnd]
        exact heq
      · rcases hprop with ⟨hds, hdr⟩ | hcount
        · rcases List.mem_cons.mp hds with rfl | hds'
          · right
            have h1 : 0 < rest.count d := List.count_pos_iff.mpr hdr
            rw [List.count_cons_self]
            omega
          · exact Or.inl ⟨hds', List.mem_cons_of_mem _ hdr⟩
        · right
          have : rest.count d ≤ (v :: rest).count d := by
            rw [List.count_cons]
            omega
          omega

theorem validateLoop_extra (cands : List α) (hnd : cands.Nodup) :
    ∀ (ballot seen : List α), (∃ x ∈ ballot, x ∉ cands) →
    (∀ x ∈ ballot, x ∈ cands → x ∉ seen) →
    (∀ c ∈ cands, ballot.count c ≤ 1) →
    ∃ e, validateLoop (mapFlags cands seen) ballot = .error (.ExtraCandidate e) ∧
      e ∈ ballot ∧ e ∉ cands := by
  intro ballot
  induction ballot with
  | nil =>
    intro seen h _ _
    obtain ⟨x, hx, -⟩ := h
    cases hx
  | cons v rest ih =>
    intro seen hex hdis hcnt
    by_cases hv : v ∈ cands
    · have hvs : v ∉ seen := hdis v (List.mem_cons_self _ _) hv
      have hlook : lookupFlag (mapFlags cands seen) v = some false := by
        rw [lookupFlag_mapFlags, if_pos hv]
        simp [hvs]
      have hvr : v ∉ rest := by
        intro hr
        have hc := hcnt v hv
        have h1 : 0 < rest.count v := List.count_pos_iff.mpr hr
        rw [List.count_cons_self] at hc
        omega
      obtain ⟨e, heq, he1, he2⟩ := ih (v :: seen)
        (by
          obtain ⟨x, hx, hxc⟩ := hex
          rcases List.mem_cons.mp hx with rfl | hx'
          · exact absurd hv hxc
          · exact ⟨x, hx', hxc⟩)
        (by
          intro x hx hxc
          simp only [List.mem_cons]
          push_neg
          exact ⟨fun e => hvr (e ▸ hx), hdis x (List.mem_cons_of_mem _ hx) hxc⟩)
        (by
          intro c hc
          have := hcnt c hc
          rw [List.count_cons] at this
          omega)
      refine ⟨e, ?_, List.mem_cons_of_mem _ he1, he2⟩
      simp only [validateLoop, hlook]
      rw [markSeen_mapFlags cands seen v hnd]
      exact heq
    · have hlook : lookupFlag (mapFlags cands seen) v = none := by
        rw [lookupFlag_mapFlags, if_neg hv]
      exact ⟨v, by simp only [validateLoop, hlook], List.mem_cons_self _ _, hv⟩

/-! ### `scanMissing` characterizations -/

theorem scanMissing_none (seen : List α) :
    ∀ cands : List α, (∀ c ∈ cands, c ∈ seen) →
    scanMissing (mapFlags cands seen) = none := by
  intro cands
  induction cands with
  | nil => intro _; rfl
  | cons a t ih =>
    intro h
    have ha : a ∈ seen := h a (List.mem_cons_self _ _)
    simp only [mapFlags, List.map_cons, scanMissing]
    rw [if_pos (by simp [ha])]
    exact ih (fun c hc => h c (List.mem_cons_of_mem _ hc))

theorem scanMissing_none_inv (seen : List α) :
    ∀ cands : List α, scanMissing (mapFlags cands seen) = none →
    ∀ c ∈ cands, c ∈ seen := by
  intro cands
  induction cands with
  | nil => intro _ c hc; cases hc
  | cons a t ih =>
    intro h c hc
    simp only [mapFlags, List.map_cons, scanMissing] at h
    by_cases ha : a ∈ seen
    · rw [if_pos (by simp [ha])] at h
      rcases List.mem_cons.mp hc with rfl | hc'
      · exact ha
      · exact ih h c hc'
    · rw [if_neg (by simp [ha])] at h
      cases h

theorem scanMissing_finds (seen : List α) (m : α) :
    ∀ cands : List α, m ∈ cands → m ∉ seen →
    (∀ c ∈ cands, c ≠ m → c ∈ seen) →
    scanMissing (mapFlags cands seen) = some (.MissingCandidate m) := by
  intro cands
  induction cands with
  | nil => intro hm _ _; cases hm
  | cons a t ih =>
    intro hm hms hrest
    simp only [mapFlags, List.map_cons, scanMissing]
    by_cases h : a = m
    · subst h
      rw [if_neg (by simp [hms])]
    · have ha : a ∈ seen := hrest a (List.mem_cons_self _ _) h
      rw [if_pos (by simp [ha])]
      have hm' : m ∈ t := by
        rcases List.mem_cons.mp hm with h1 | h1
        · exact absurd h1.symm h
        · exact h1
      exact ih hm' hms (fun c hc hcm => hrest c (List.mem_cons_of_mem _ hc) hcm)

/-! ### `addBallot` characterizations -/

theorem candidateMap_eq_mapFlags (p : Poll α) (hw : PollWf p) :
    p.candidateMap = mapFlags p.candidates [] :=
  hw.2.trans (mapFlags_nil _).symm

theorem addBallot_perm (p : Poll α) (hw : PollWf p) (ballot : List α)
    (hb : BallotComplete p.candidates ballot) :
    addBallot p ballot = (none, { p with ballots := p.ballots ++ [ballot] }) := by
  obtain ⟨hbnd, hsub, hsup⟩ := hb
  have h1 := validateLoop_ok p.candidates hw.1 ballot [] hbnd hsub (by simp)
  have h2 : scanMissing (mapFlags p.candidates (ballot ++ [])) = none :=
    scanMissing_none _ _ (fun c hc => by simpa using hsup c hc)
  unfold addBallot
  rw [candidateMap_eq_mapFlags p hw]
  simp only [h1, h2]

theorem addBallot_missing (p : Poll α) (hw : PollWf p) (ballot : List α) (m : α)
    (hm : m ∈ p.candidates) (hmb : m ∉ ballot)
    (hothers : ∀ c ∈ p.candidates, c ≠ m → c ∈ ballot)
    (hbnd : ballot.Nodup) (hsub : ∀ x ∈ ballot, x ∈ p.candidates) :
    addBallot p ballot = (some (.MissingCandidate m), p) := by
  have h1 := validateLoop_ok p.candidates hw.1 ballot [] hbnd hsub (by simp)
  have h2 : scanMissing (mapFlags p.candidates (ballot ++ [])) =
      some (.MissingCandidate m) := by
    refine scanMissing_finds _ m p.candidates hm (by simpa using hmb) ?_
    intro c hc hcm
    simpa using hothers c hc hcm
  unfold addBallot
  rw [candidateMap_eq_mapFlags p hw]
  simp only [h1, h2]

theorem addBallot_dup (p : Poll α) (hw : PollWf p) (ballot : List α)
    (hsub : ∀ x ∈ ballot, x ∈ p.candidates) (hdup : ¬ ballot.Nodup) :
    ∃ d, addBallot p ballot = (some (.DuplicateCandidate d), p) ∧
      2 ≤ ballot.count d := by
  obtain ⟨d, heq, hprop⟩ :=
    validateLoop_dup p.candidates hw.1 ballot [] hsub (Or.inl hdup)
  refine ⟨d, ?_, ?_⟩
  · unfold addBallot
    rw [candidateMap_eq_mapFlags p hw]
    simp only [heq]
  · rcases hprop with ⟨hds, -⟩ | h2
    · cases hds
    · exact h2

theorem addBallot_extra (p : Poll α) (hw : PollWf p) (ballot : List α)
    (hex : ∃ x ∈ ballot, x ∉ p.candidates)
    (hcnt : ∀ c ∈ p.candidates, ballot.count c ≤ 1) :
    ∃ e, addBallot p ballot = (some (.ExtraCandidate e), p) ∧
      e ∈ ballot ∧ e ∉ p.candidates := by
  obtain ⟨e, heq, he1, he2⟩ :=
    validateLoop_extra p.candidates hw.1 ballot [] hex (by intro x _ _; simp) hcnt
  refine ⟨e, ?_, he1, he2⟩
  unfold addBallot
  rw [candidateMap_eq_mapFlags p hw]
  simp only [heq]

theorem addBallot_frame (p : Poll α) (b : List α) :
    ((addBallot p b).1 ≠ none → (addBallot p b).2 = p) ∧
    ((addBallot p b).1 = none →
      (addBallot p b).2 = { p with ballots := p.ballots ++ [b] }) ∧
    (addBallot p b).2.candidates = p.candidates ∧
    (addBallot p b).2.candidateMap = p.candidateMap := by
  cases hval : validateLoop p.candidateMap b with
  | error e => simp [addBallot, hval]
  | ok hm =>
    cases hscan : scanMissing hm with
    | some e => simp [addBallot, hval, hscan]
    | none => simp [addBallot, hval, hscan]

theorem addBallot_ok_sound (p : Poll α) (hw : PollWf p) (b : List α)
    (h : (addBallot p b).1 = none) : BallotComplete p.candidates b := by
  cases hval : validateLoop p.candidateMap b with
  | error e =>
    simp only [addBallot, hval] at h
    cases h
  | ok hm =>
    cases hscan : scanMissing hm with
    | some e =>
      simp only [addBallot, hval, hscan] at h
      cases h
    | none =>
      rw [candidateMap_eq_mapFlags p hw] at hval
      obtain ⟨hsub, hbnd, -, hmeq⟩ :=
        validateLoop_ok_inv p.candidates hw.1 b [] hm hval
      rw [hmeq] at hscan
      have hsup := scanMissing_none_inv (b ++ []) p.candidates hscan
      exact ⟨hbnd, hsub, fun x hx => by simpa using hsup x hx⟩

theorem addBallot_preserves_valid (p : Poll α) (hv : ValidPoll p) (b : List α) :
    ValidPoll (addBallot p b).2 := by
  obtain ⟨hw, hball⟩ := hv
  by_cases h : (addBallot p b).1 = none
  · have hb := addBallot_ok_sound p hw b h
    rw [(addBallot_frame p b).2.1 h]
    refine ⟨hw, ?_⟩
    intro b' hb'
    rcases List.mem_append.mp hb' with h1 | h1
    · exact hball b' h1
    · rw [List.mem_singleton] at h1
      subst h1
      exact hb
  · rw [(addBallot_frame p b).1 h]
    exact ⟨hw, hball⟩

/-! ### Round-trace lemmas -/

theorem validState_startRounds (p : Poll α) (hv : ValidPoll p) :
    ValidState (startRounds p) :=
  ⟨hv.1.1, hv.2⟩

theorem selectLoser_total (r : List (α × Nat)) (hne : r ≠ []) :
    ∃ l w, selectLoser r = some (l, w) := by
  cases r with
  | nil => exact absurd rfl hne
  | cons q rest =>
    obtain ⟨k, v⟩ := q
    exact ⟨(findMin k v rest).1, (findMin k v rest).2, rfl⟩

theorem stepN_valid : ∀ (k : Nat) (s s' : PollRound α), ValidState s →
    stepN k s = some s' → ValidState s' := by
  intro k
  induction k with
  | zero =>
    intro s s' hv h
    simp only [stepN, Option.some.injEq] at h
    rw [← h]
    exact hv
  | succ n ih =>
    intro s s' hv h
    simp only [stepN] at h
    split at h
    · rename_i res next hn
      exact ih next s' (nextRound_preserves s res next hv hn).1 h
    · cases h

theorem nextRound_no_panicKey (s : PollRound α)
    (h : ∀ b ∈ s.ballots, ∀ x ∈ b, x ∈ s.candidates) :
    nextRound s ≠ RoundStep.panicKey := by
  unfold nextRound
  cases htal : tallyLoop (s.candidates.map (fun c => (c, 0))) s.ballots with
  | panicKey =>
    exfalso
    refine tallyLoop_no_panic s.ballots _ ?_ htal
    intro b hb v hv
    rw [keys_init]
    cases b with
    | nil => simp at hv
    | cons v0 t =>
      simp only [List.head?, Option.some.injEq] at hv
      subst hv
      exact h _ hb _ (List.mem_cons_self _ _)
  | emptyBallot => simp
  | ok r =>
    cases hsel : selectLoser r with
    | none => simp [hsel]
    | some q =>
      obtain ⟨l, w⟩ := q
      simp [hsel]

theorem nextRound_no_ballots (s : PollRound α) (hb : s.ballots = [])
    (hne : s.candidates ≠ []) :
    ∃ res next, nextRound s = .step res next ∧
      res.results = s.candidates.map (fun c => (c, 0)) ∧
      res.loser ∈ s.candidates ∧ res.votes = 0 ∧
      next.ballots = [] ∧
      next.candidates = s.candidates.filter (fun c => decide (c ≠ res.loser)) := by
  have htal : tallyLoop (s.candidates.map (fun c => (c, 0))) s.ballots =
      .ok (s.candidates.map (fun c => (c, 0))) := by
    rw [hb]
    rfl
  obtain ⟨c0, crest, hc⟩ : ∃ c0 crest, s.candidates = c0 :: crest := by
    cases hcc : s.candidates with
    | nil => exact absurd hcc hne
    | cons a t => exact ⟨a, t, rfl⟩
  have hzero : ∀ q ∈ crest.map (fun c => (c, (0 : Nat))), q.2 = 0 := by
    intro q hq
    obtain ⟨c, hcm, rfl⟩ := List.mem_map.mp hq
    rfl
  have hsel : selectLoser (s.candidates.map (fun c => (c, 0))) = some (c0, 0) := by
    rw [hc, List.map_cons]
    simp only [selectLoser]
    rw [findMin_zero (crest.map (fun c => (c, 0))) c0 hzero]
  have hstep := nextRound_step_of s _ c0 0 htal hsel
  refine ⟨_, _, hstep, rfl, ?_, rfl, ?_, rfl⟩
  · rw [hc]
    exact List.mem_cons_self _ _
  · rw [hb]
    rfl

theorem stepN_no_ballots : ∀ (k : Nat) (s : PollRound α), s.ballots = [] →
    s.candidates.Nodup → k < s.candidates.length →
    ∃ sk, stepN k s = some sk ∧ sk.ballots = [] ∧ sk.candidates.Nodup ∧
      sk.candidates.length = s.candidates.length - k := by
  intro k
  induction k with
  | zero =>
    intro s hb hnd hk
    exact ⟨s, rfl, hb, hnd, by omega⟩
  | succ m ih =>
    intro s hb hnd hk
    have hne : s.candidates ≠ [] := by
      intro h0
      rw [h0] at hk
      simp at hk
    obtain ⟨res, next, hstep, -, hloser, -, hnb, hncand⟩ :=
      nextRound_no_ballots s hb hne
    have hnnd : next.candidates.Nodup := by
      rw [hncand]
      exact hnd.filter _
    have hlen : next.candidates.length + 1 = s.candidates.length := by
      rw [hncand]
      exact filter_ne_length s.candidates res.loser hnd hloser
    obtain ⟨sk, hsk, h1, h2, h3⟩ := ih next hnb hnnd (by omega)
    refine ⟨sk, ?_, h1, h2, by omega⟩
    simp only [stepN, hstep]
    exact hsk

theorem runRounds_sum : ∀ (fuel : Nat) (s : PollRound α), ValidState s →
    ∀ res ∈ (runRounds fuel s).1,
    (res.results.map Prod.snd).sum = s.ballots.length := by
  intro fuel
  induction fuel with
  | zero =>
    intro s _ res h
    simp [runRounds] at h
  | succ n ih =>
    intro s hv res hres
    simp only [runRounds] at hres
    split at hres
    · simp at hres
    · simp at hres
    · simp at hres
    · rename_i res0 next hn
      simp only [List.mem_cons] at hres
      rcases hres with rfl | hres'
      · obtain ⟨h1, -⟩ := nextRound_step_inv s res next hn
        have hsum := tallyLoop_ok_sum s.ballots _ _ h1
        rw [sum_init] at hsum
        simpa using hsum
      · have hpres := nextRound_preserves s res0 next hv hn
        rw [← hpres.2.1]
        exact ih next hpres.1 res hres'

theorem runRounds_round_numbers : ∀ (fuel : Nat) (s : PollRound α) (k : Nat)
    (res : PollResult α), ((runRounds fuel s).1)[k]? = some res →
    res.round = s.last_round + k + 1 := by
  intro fuel
  induction fuel with
  | zero =>
    intro s k res h
    simp [runRounds] at h
  | succ n ih =>
    intro s k res h
    simp only [runRounds] at h
    split at h
    · simp at h
    · simp at h
    · simp at h
    · rename_i res0 next hn
      cases k with
      | zero =>
        simp only [List.getElem?_cons_zero, Option.some.injEq] at h
        obtain ⟨-, -, hround, -⟩ := nextRound_step_inv s res0 next hn
        rw [← h]
        simpa using hround
      | succ m =>
        simp only [List.getElem?_cons_succ] at h
        have hm := ih next m res h
        obtain ⟨-, -, -, -, -, hlast⟩ := nextRound_step_inv s res0 next hn
        rw [hlast] at hm
        omega

theorem runRounds_complete : ∀ (n : Nat) (s : PollRound α), ValidState s →
    s.ballots ≠ [] → s.candidates.length = n →
    (runRounds (n + 1) s).1.length = n ∧ (runRounds (n + 1) s).2 = .finished := by
  intro n
  induction n with
  | zero =>
    intro s hv hb hlen
    have hcand : s.candidates = [] := List.length_eq_zero.mp hlen
    cases hbs : s.ballots with
    | nil => exact absurd hbs hb
    | cons b bs =>
      have hbempty : b = [] := by
        have hsub := (hv.2 b (by rw [hbs]; exact List.mem_cons_self _ _)).2.1
        rw [hcand] at hsub
        exact List.eq_nil_iff_forall_not_mem.mpr (fun x hx => by simpa using hsub x hx)
      have htal : tallyLoop (s.candidates.map (fun c => (c, 0))) s.ballots =
          .emptyBallot := by
        rw [hbs, hbempty]
        rfl
      have hn : nextRound s = .done := by
        unfold nextRound
        simp only [htal]
      simp [runRounds, hn]
  | succ m ih =>
    intro s hv hb hlen
    have hcne : s.candidates ≠ [] := by
      intro h0
      rw [h0] at hlen
      simp at hlen
    obtain ⟨c0, hc0⟩ : ∃ c, c ∈ s.candidates := by
      cases hc : s.candidates with
      | nil => exact absurd hc hcne
      | cons a t => exact ⟨a, List.mem_cons_self _ _⟩
    obtain ⟨r', hr'⟩ : ∃ r', tallyLoop (s.candidates.map (fun c => (c, 0)))
        s.ballots = .ok r' := by
      apply tallyLoop_total
      intro b hbm
      obtain ⟨hbnd, hbsub, hbsup⟩ := hv.2 b hbm
      cases hbc : b with
      | nil =>
        have := hbsup c0 hc0
        rw [hbc] at this
        cases this
      | cons v t =>
        refine ⟨v, rfl, ?_⟩
        rw [keys_init]
        exact hbsub v (by rw [hbc]; exact List.mem_cons_self _ _)
    have hkeys : r'.map Prod.fst = s.candidates := by
      rw [tallyLoop_ok_keys s.ballots _ _ hr', keys_init]
    have hrne : r' ≠ [] := by
      intro h0
      rw [h0] at hkeys
      exact hcne hkeys.symm
    obtain ⟨l, w, hsel⟩ := selectLoser_total r' hrne
    have hstep := nextRound_step_of s r' l w hr' hsel
    have hpres := nextRound_preserves s _ _ hv hstep
    have hnb : (PollRound.mk (s.candidates.filter (fun c => decide (c ≠ l)))
        (s.ballots.map (fun b => b.filter (fun c => decide (c ≠ l))))
        (s.last_round + 1)).ballots ≠ [] := by
      intro h0
      apply hb
      have := hpres.2.1
      rw [h0] at this
      exact (List.eq_nil_of_length_eq_zero this.symm)
    have hlen' := hpres.2.2
    obtain ⟨ih1, ih2⟩ := ih _ hpres.1 hnb (by omega)
    simp only [runRounds, hstep]
    exact ⟨by simpa using ih1, ih2⟩

/-! ### Order-independence of loser selection under a strict minimum -/

theorem selectLoser_perm_strict (r r' : List (α × Nat)) (hperm : r'.Perm r)
    (q₀ : α × Nat) (hq : q₀ ∈ r)
    (hstrict : ∀ q ∈ r, q ≠ q₀ → q₀.2 < q.2) :
    selectLoser r' = some q₀ := by
  have hne : r' ≠ [] := by
    intro h0
    rw [h0] at hperm
    rw [hperm.symm.eq_nil] at hq
    cases hq
  obtain ⟨l, w, hsel⟩ := selectLoser_total r' hne
  obtain ⟨hmem', hmin'⟩ := selectLoser_some r' l w hsel
  have hmem : (l, w) ∈ r := hperm.mem_iff.mp hmem'
  have hq' : q₀ ∈ r' := hperm.mem_iff.mpr hq
  have heq : (l, w) = q₀ := by
    by_contra hne2
    have hlt := hstrict (l, w) hmem hne2
    have hle := hmin' q₀ hq'
    exact absurd hle (Nat.not_le.mpr hlt)
  rw [hsel, heq]

theorem nextRoundWith_eq (π : List (α × Nat) → List (α × Nat))
    (s : PollRound α) (hπ : ∀ r, (π r).Perm r)
    (hstrict : ∀ res next, nextRound s = RoundStep.step res next →
      StrictMin res.results) :
    nextRoundWith π s = nextRound s := by
  cases htal : tallyLoop (s.candidates.map (fun c => (c, 0))) s.ballots with
  | panicKey => simp only [nextRoundWith, nextRound, htal]
  | emptyBallot => simp only [nextRoundWith, nextRound, htal]
  | ok r =>
    cases hsel : selectLoser r with
    | none =>
      have hr : r = [] := (selectLoser_eq_none r).mp hsel
      have hπr : selectLoser (π r) = none := by
        rw [(selectLoser_eq_none _).mpr]
        subst hr
        exact (hπ []).eq_nil
      simp only [nextRoundWith, nextRound, htal, hsel, hπr]
    | some q =>
      obtain ⟨l, w⟩ := q
      have hstep := nextRound_step_of s r l w htal hsel
      have hsm := hstrict _ _ hstep
      unfold StrictMin at hsm
      obtain ⟨q₀, hq₀, hq₀strict⟩ := hsm
      have hcanon : selectLoser r = some q₀ :=
        selectLoser_perm_strict r r (List.Perm.refl r) q₀ hq₀ hq₀strict
      have hq0lw : q₀ = (l, w) := by
        rw [hsel] at hcanon
        exact (Option.some_injective _ hcanon).symm
      have hsel' : selectLoser (π r) = some (l, w) := by
        rw [← hq0lw]
        exact selectLoser_perm_strict r (π r) (hπ r) q₀ hq₀ hq₀strict
      simp only [nextRoundWith, nextRound, htal, hsel, hsel']

theorem runRoundsWith_eq_runRounds (πs : Nat → List (α × Nat) → List (α × Nat))
    (hπ : IsOrderChoice πs) : ∀ (fuel : Nat) (s : PollRound α),
    (∀ res ∈ (runRounds fuel s).1, StrictMin res.results) →
    runRoundsWith πs fuel s = runRounds fuel s := by
  intro fuel
  induction fuel with
  | zero => intro s _; rfl
  | succ n ih =>
    intro s hnt
    have heq : nextRoundWith (πs s.last_round) s = nextRound s := by
      apply nextRoundWith_eq _ _ (hπ s.last_round)
      intro res next hstep
      apply hnt res
      simp only [runRounds, hstep]
      exact List.mem_cons_self _ _
    cases hn : nextRound s with
    | panicKey => simp only [runRoundsWith, runRounds, heq, hn]
    | panicNoLoser => simp only [runRoundsWith, runRounds, heq, hn]
    | done => simp only [runRoundsWith, runRounds, heq, hn]
    | step res next =>
      have hrec := ih next (by
        intro res' hres'
        apply hnt res'
        simp only [runRounds, hn]
        exact List.mem_cons_of_mem _ hres')
      simp only [runRoundsWith, runRounds, heq, hn, hrec]

/-! ### Claim theorems -/

/-- C1 (amended): a ballot that is a permutation of the candidate set is
accepted; a ballot omitting exactly one registered candidate (with no
repeats and no foreign entries) is rejected with `MissingCandidate`
naming the omitted candidate; a ballot repeating a registered candidate
with no foreign entry is rejected with `DuplicateCandidate` naming a
repeated candidate; a ballot containing a foreign candidate with no
registered candidate repeated is rejected with `ExtraCandidate` naming a
foreign entry. -/
theorem claim1_validation (p : Poll α) (hw : PollWf p) (ballot : List α) :
    (BallotComplete p.candidates ballot → (addBallot p ballot).1 = none) ∧
    (∀ m, m ∈ p.candidates → m ∉ ballot →
      (∀ c ∈ p.candidates, c ≠ m → c ∈ ballot) →
      ballot.Nodup → (∀ x ∈ ballot, x ∈ p.candidates) →
      (addBallot p ballot).1 = some (.MissingCandidate m)) ∧
    (¬ ballot.Nodup → (∀ x ∈ ballot, x ∈ p.candidates) →
      ∃ d, (addBallot p ballot).1 = some (.DuplicateCandidate d) ∧
        2 ≤ ballot.count d) ∧
    ((∃ x ∈ ballot, x ∉ p.candidates) →
      (∀ c ∈ p.candidates, ballot.count c ≤ 1) →
      ∃ e, (addBallot p ballot).1 = some (.ExtraCandidate e) ∧
        e ∈ ballot ∧ e ∉ p.candidates) := by
  refine ⟨?_, ?_, ?_, ?_⟩
  · intro hb
    rw [addBallot_perm p hw ballot hb]
  · intro m hm hmb hothers hbnd hsub
    rw [addBallot_missing p hw ballot m hm hmb hothers hbnd hsub]
  · intro hdup hsub
    obtain ⟨d, heq, hcount⟩ := addBallot_dup p hw ballot hsub hdup
    exact ⟨d, by rw [heq], hcount⟩
  · intro hex hcnt
    obtain ⟨e, heq, h1, h2⟩ := addBallot_extra p hw ballot hex hcnt
    exact ⟨e, by rw [heq], h1, h2⟩

/-- C1 counterexample: over candidates `{0, 1, 2}`, the ballot
`[0, 0, 3]` contains the foreign candidate `3` yet is rejected with
`DuplicateCandidate 0` (not `ExtraCandidate`), and the ballot `[3, 0, 0]`
repeats the registered candidate `0` yet is rejected with
`ExtraCandidate 3` (not `DuplicateCandidate`): the unqualified duplicate
and extra branches of the claim are both false. -/
theorem claim1_validation_counterexample :
    (addBallot (Poll.new ([0, 1, 2] : List Nat)) [0, 0, 3]).1 =
      some (BallotError.DuplicateCandidate 0) ∧
    (addBallot (Poll.new ([0, 1, 2] : List Nat)) [0, 0, 3]).1 ≠
      some (BallotError.ExtraCandidate 3) ∧
    (addBallot (Poll.new ([0, 1, 2] : List Nat)) [3, 0, 0]).1 =
      some (BallotError.ExtraCandidate 3) ∧
    (addBallot (Poll.new ([0, 1, 2] : List Nat)) [3, 0, 0]).1 ≠
      some (BallotError.DuplicateCandidate 0) := by
  decide

/-- C1 witness: the amended claim evaluated on concrete ballots over the
candidate set `[0, 1, 2]`. -/
theorem claim1_validation_witness :
    (addBallot (Poll.new ([0, 1, 2] : List Nat)) [2, 0, 1]).1 = none ∧
    (addBallot (Poll.new ([0, 1, 2] : List Nat)) [0, 1]).1 =
      some (BallotError.MissingCandidate 2) ∧
    (∃ d, (addBallot (Poll.new ([0, 1, 2] : List Nat)) [0, 1, 1]).1 =
      some (BallotError.DuplicateCandidate d) ∧
      2 ≤ ([0, 1, 1] : List Nat).count d) ∧
    (∃ e, (addBallot (Poll.new ([0, 1, 2] : List Nat)) [0, 1, 5]).1 =
      some (BallotError.ExtraCandidate e) ∧ e ∈ ([0, 1, 5] : List Nat) ∧
      e ∉ ([0, 1, 2] : List Nat)) := by
  have hw : PollWf (Poll.new ([0, 1, 2] : List Nat)) := by decide
  refine ⟨?_, ?_, ?_, ?_⟩
  · exact (claim1_validation _ hw [2, 0, 1]).1 (by decide)
  · exact (claim1_validation _ hw [0, 1]).2.1 2 (by decide) (by decide)
      (by decide) (by decide) (by decide)
  · exact (claim1_validation _ hw [0, 1, 1]).2.2.1 (by decide) (by decide)
  · exact (claim1_validation _ hw [0, 1, 5]).2.2.2 (by decide) (by decide)

/-- C2: in a poll with a duplicate-free non-empty candidate set and zero
submitted ballots, every `next_round` call made before the surviving
set is exhausted returns a round whose tally maps every surviving
candidate to 0 and whose loser is a surviving candidate (so none of
those calls panics). -/
theorem claim2_zero_ballots (p : Poll α) (hb : p.ballots = [])
    (hnd : p.candidates.Nodup) (k : Nat) (hk : k < p.candidates.length) :
    ∃ s res next, stepN k (startRounds p) = some s ∧
      nextRound s = RoundStep.step res next ∧
      res.results = s.candidates.map (fun c => (c, 0)) ∧
      res.loser ∈ s.candidates ∧ res.votes = 0 := by
  obtain ⟨sk, hsk, h1, h2, h3⟩ := stepN_no_ballots k (startRounds p)
    (by simpa [startRounds] using hb) (by simpa [startRounds] using hnd)
    (by simpa [startRounds] using hk)
  have hlen : sk.candidates.length = p.candidates.length - k := h3
  have hne : sk.candidates ≠ [] := by
    intro h0
    rw [h0] at hlen
    simp at hlen
    omega
  obtain ⟨res, next, hstep, hres, hloser, hvotes, -, -⟩ :=
    nextRound_no_ballots sk h1 hne
  exact ⟨sk, res, next, hsk, hstep, hres, hloser, hvotes⟩

/-- C2 witness: the second round of the empty two-candidate poll. -/
theorem claim2_zero_ballots_witness :
    ∃ s res next, stepN 1 (startRounds (Poll.new ([0, 1] : List Nat))) = some s ∧
      nextRound s = RoundStep.step res next ∧
      res.results = s.candidates.map (fun c => (c, 0)) ∧
      res.loser ∈ s.candidates ∧ res.votes = 0 :=
  claim2_zero_ballots (Poll.new ([0, 1] : List Nat)) rfl (by decide) 1 (by decide)

/-- C3 (amended): for a valid poll with `N ≥ 1` candidates and AT LEAST
ONE submitted ballot, the round sequence yields exactly `N` results and
then terminates normally (the next call returns `None`).  With zero
ballots the code instead panics after the `N`-th round, see the
counterexample. -/
theorem claim3_rounds_terminate (p : Poll α) (hv : ValidPoll p)
    (hb : p.ballots ≠ []) (hn : 1 ≤ p.candidates.length) :
    (runRounds (p.candidates.length + 1) (startRounds p)).1.length =
      p.candidates.length ∧
    (runRounds (p.candidates.length + 1) (startRounds p)).2 =
      TraceEnd.finished :=
  runRounds_complete p.candidates.length (startRounds p)
    (validState_startRounds p hv) hb rfl

/-- C3 counterexample: a one-candidate poll with zero ballots yields its
single round and then the next `next_round` call hits
`loser.unwrap()` on an empty tally map and panics, rather than the
iterator returning `None`. -/
theorem claim3_rounds_terminate_counterexample :
    (runRounds 2 (startRounds (Poll.new ([0] : List Nat)))).1.length = 1 ∧
    (runRounds 2 (startRounds (Poll.new ([0] : List Nat)))).2 =
      TraceEnd.panicked := by
  decide

/-- C3 witness: a two-candidate poll with one ballot runs exactly two
rounds and finishes. -/
theorem claim3_rounds_terminate_witness :
    (runRounds (([0, 1] : List Nat).length + 1)
      (startRounds (Poll.mk [0, 1] [[1, 0]] [(0, false), (1, false)]))).1.length =
      ([0, 1] : List Nat).length ∧
    (runRounds (([0, 1] : List Nat).length + 1)
      (startRounds (Poll.mk [0, 1] [[1, 0]] [(0, false), (1, false)]))).2 =
      TraceEnd.finished :=
  claim3_rounds_terminate (Poll.mk [0, 1] [[1, 0]] [(0, false), (1, false)])
    (by decide) (by decide) (by decide)

/-- C4: in every round yielded while tabulating a valid poll, the tally
values sum to the number of submitted ballots. -/
theorem claim4_tally_conservation (p : Poll α) (hv : ValidPoll p) (fuel : Nat)
    (res : PollResult α) (hres : res ∈ (runRounds fuel (startRounds p)).1) :
    (res.results.map Prod.snd).sum = p.ballots.length :=
  runRounds_sum fuel (startRounds p) (validState_startRounds p hv) res hres

/-- C4 witness: the first round of a one-ballot poll tallies to 1. -/
theorem claim4_tally_conservation_witness :
    ((PollResult.mk (1 : Nat) 0 [(0, 1), (1, 0)] 1).results.map Prod.snd).sum =
      (Poll.mk ([0, 1] : List Nat) [[0, 1]] [(0, false), (1, false)]).ballots.length :=
  claim4_tally_conservation (Poll.mk [0, 1] [[0, 1]] [(0, false), (1, false)])
    (by decide) 3 (PollResult.mk 1 0 [(0, 1), (1, 0)] 1) (by decide)

/-- C5: every yielded `RoundResult` has the surviving candidates as the
tally keys, its loser is a surviving candidate whose tally is minimal,
and `votes` is that minimal tally. -/
theorem claim5_round_result (s : PollRound α) (res : PollResult α)
    (next : PollRound α) (h : nextRound s = RoundStep.step res next) :
    res.results.map Prod.fst = s.candidates ∧
    res.loser ∈ s.candidates ∧
    (res.loser, res.votes) ∈ res.results ∧
    (∀ q ∈ res.results, res.votes ≤ q.2) := by
  obtain ⟨h1, h2, -⟩ := nextRound_step_inv s res next h
  have hkeys : res.results.map Prod.fst = s.candidates := by
    rw [tallyLoop_ok_keys s.ballots _ _ h1, keys_init]
  obtain ⟨hmem, hmin⟩ := selectLoser_some res.results res.loser res.votes h2
  exact ⟨hkeys, loser_mem_candidates s res next h, hmem, hmin⟩

/-- C5 witness: the first round of the empty two-candidate poll. -/
theorem claim5_round_result_witness :
    ([((0 : Nat), (0 : Nat)), (1, 0)].map Prod.fst = [0, 1]) ∧
    ((0 : Nat) ∈ ([0, 1] : List Nat)) ∧
    (((0 : Nat), (0 : Nat)) ∈ [((0 : Nat), (0 : Nat)), (1, 0)]) ∧
    (∀ q ∈ [((0 : Nat), (0 : Nat)), (1, 0)], (0 : Nat) ≤ q.2) :=
  claim5_round_result (startRounds (Poll.new ([0, 1] : List Nat)))
    (PollResult.mk 0 0 [(0, 0), (1, 0)] 1) (PollRound.mk [1] [] 1) (by decide)

/-- C6: one `next_round` step removes exactly the loser from the
surviving set (shrinking it by one) and filters the loser out of every
ballot, and the round numbers of the yielded sequence are 1, 2, 3, ... -/
theorem claim6_shrinkage :
    (∀ (s : PollRound α) (res : PollResult α) (next : PollRound α),
      s.candidates.Nodup → nextRound s = RoundStep.step res next →
      next.candidates = s.candidates.filter (fun c => decide (c ≠ res.loser)) ∧
      next.candidates.length + 1 = s.candidates.length ∧
      next.ballots = s.ballots.map (fun b => b.filter (fun c => decide (c ≠ res.loser))) ∧
      res.round = s.last_round + 1 ∧ next.last_round = s.last_round + 1) ∧
    (∀ (p : Poll α) (fuel k : Nat) (res : PollResult α),
      ((runRounds fuel (startRounds p)).1)[k]? = some res →
      res.round = k + 1) := by
  constructor
  · intro s res next hnd h
    obtain ⟨-, -, hround, hcand, hball, hlast⟩ := nextRound_step_inv s res next h
    have hloser := loser_mem_candidates s res next h
    refine ⟨hcand, ?_, hball, hround, hlast⟩
    rw [hcand]
    exact filter_ne_length s.candidates res.loser hnd hloser
  · intro p fuel k res h
    have hnum := runRounds_round_numbers fuel (startRounds p) k res h
    simpa [startRounds] using hnum

/-- C6 witness: both parts evaluated on the empty two-candidate poll. -/
theorem claim6_shrinkage_witness :
    (([1] : List Nat) = [0, 1].filter (fun c => decide (c ≠ 0)) ∧
      ([1] : List Nat).length + 1 = ([0, 1] : List Nat).length ∧
      ([] : List (List Nat)) =
        ([] : List (List Nat)).map (fun b => b.filter (fun c => decide (c ≠ 0))) ∧
      (1 : Nat) = 0 + 1 ∧ (1 : Nat) = 0 + 1) ∧
    (1 : Nat) = 0 + 1 :=
  ⟨claim6_shrinkage.1 (startRounds (Poll.new ([0, 1] : List Nat)))
      (PollResult.mk 0 0 [(0, 0), (1, 0)] 1) (PollRound.mk [1] [] 1)
      (by decide) (by decide),
   claim6_shrinkage.2 (Poll.new ([0, 1] : List Nat)) 3 0
      (PollResult.mk 0 0 [(0, 0), (1, 0)] 1) (by decide)⟩

/-- C7: `add_ballot` mutates the poll only on success — on an error every
field is unchanged, and success holds exactly when the ballot was
appended to the stored collection; candidates and the validation map are
never changed. -/
theorem claim7_error_frame (p : Poll α) (b : List α) :
    ((addBallot p b).1 ≠ none → (addBallot p b).2 = p) ∧
    ((addBallot p b).1 = none ↔ (addBallot p b).2.ballots = p.ballots ++ [b]) ∧
    (addBallot p b).2.candidates = p.candidates ∧
    (addBallot p b).2.candidateMap = p.candidateMap := by
  obtain ⟨h1, h2, h3, h4⟩ := addBallot_frame p b
  refine ⟨h1, ⟨?_, ?_⟩, h3, h4⟩
  · intro h
    rw [h2 h]
  · intro h
    by_contra hne
    rw [h1 hne] at h
    have hlen := congrArg List.length h
    simp at hlen

/-- C7 witness: a rejected duplicate ballot leaves the poll unchanged and
an accepted ballot is appended. -/
theorem claim7_error_frame_witness :
    (addBallot (Poll.new ([0, 1] : List Nat)) [0, 0]).2 = Poll.new [0, 1] ∧
    (addBallot (Poll.new ([0, 1] : List Nat)) [1, 0]).2.ballots =
      (Poll.new ([0, 1] : List Nat)).ballots ++ [[1, 0]] :=
  ⟨(claim7_error_frame (Poll.new [0, 1]) [0, 0]).1 (by decide),
   (claim7_error_frame (Poll.new [0, 1]) [1, 0]).2.1.mp (by decide)⟩

/-- C8 (amended): two `start_rounds` passes over the same unmodified poll
yield identical round sequences PROVIDED no yielded round's tally has a
tie for the minimum: each `next_round` call scans a freshly seeded
`HashMap` in an unspecified order, so the theorem quantifies over any
two admissible per-round iteration orders and shows the traces agree
whenever every yielded tally has a strict minimizer.  With a tie the two
passes may eliminate different candidates, see the counterexample. -/
theorem claim8_tie_free_tabulation (p : Poll α)
    (πs1 πs2 : Nat → List (α × Nat) → List (α × Nat))
    (h1 : IsOrderChoice πs1) (h2 : IsOrderChoice πs2) (fuel : Nat)
    (hnt : ∀ res ∈ (runRounds fuel (startRounds p)).1, StrictMin res.results) :
    runRoundsWith πs1 fuel (startRounds p) =
      runRoundsWith πs2 fuel (startRounds p) := by
  rw [runRoundsWith_eq_runRounds πs1 h1 fuel (startRounds p) hnt,
      runRoundsWith_eq_runRounds πs2 h2 fuel (startRounds p) hnt]

/-- C8 counterexample: with candidates `{0, 1}` and ballots
`[0, 1]`, `[1, 0]`, round 1 tallies to a 1–1 tie.  Insertion order and
reversed order are both admissible `HashMap` iteration orders, yet the
pass using insertion order eliminates 0 then 1, while the pass using
reversed order eliminates 1 then 0: two passes over the same unmodified
poll need not yield identical results round-for-round. -/
theorem claim8_repeat_tabulation_counterexample :
    IsOrderChoice (fun (_ : Nat) (r : List (Nat × Nat)) => r) ∧
    IsOrderChoice (fun (_ : Nat) (r : List (Nat × Nat)) => r.reverse) ∧
    (runRoundsWith (fun _ r => r) 3
        (startRounds (Poll.mk ([0, 1] : List Nat) [[0, 1], [1, 0]]
          [(0, false), (1, false)]))).1.map PollResult.loser = [0, 1] ∧
    (runRoundsWith (fun _ r => r.reverse) 3
        (startRounds (Poll.mk ([0, 1] : List Nat) [[0, 1], [1, 0]]
          [(0, false), (1, false)]))).1.map PollResult.loser = [1, 0] ∧
    runRoundsWith (fun _ r => r) 3
        (startRounds (Poll.mk ([0, 1] : List Nat) [[0, 1], [1, 0]]
          [(0, false), (1, false)])) ≠
      runRoundsWith (fun _ r => r.reverse) 3
        (startRounds (Poll.mk ([0, 1] : List Nat) [[0, 1], [1, 0]]
          [(0, false), (1, false)])) := by
  refine ⟨fun n r => List.Perm.refl r, fun n r => List.reverse_perm r, ?_, ?_, ?_⟩
  · decide
  · decide
  · decide

/-- C8 witness: a tie-free one-ballot poll tabulated under insertion
order and under reversed order produces the same trace. -/
theorem claim8_tie_free_tabulation_witness :
    runRoundsWith (fun _ r => r) 3
        (startRounds (Poll.mk ([0, 1] : List Nat) [[0, 1]]
          [(0, false), (1, false)])) =
      runRoundsWith (fun _ r => r.reverse) 3
        (startRounds (Poll.mk ([0, 1] : List Nat) [[0, 1]]
          [(0, false), (1, false)])) :=
  claim8_tie_free_tabulation (Poll.mk [0, 1] [[0, 1]] [(0, false), (1, false)])
    (fun _ r => r) (fun _ r => r.reverse)
    (fun _ r => List.Perm.refl r) (fun _ r => List.reverse_perm r) 3 (by decide)

/-- C9: consuming any number of rounds leaves the poll unchanged —
`start_rounds` takes a snapshot of the candidates and ballots (with
`last_round = 0`) and the driver returns the poll exactly as it was. -/
theorem claim9_poll_unchanged (p : Poll α) (n : Nat) :
    (consumeRounds p n).2 = p ∧
    startRounds p = PollRound.mk p.candidates p.ballots 0 ∧
    (consumeRounds p n).1 = (runRounds n (startRounds p)).1 :=
  ⟨rfl, rfl, rfl⟩

/-- C10: in every round state reachable from a valid poll, every ballot
entry is a surviving candidate, so the tally lookup
`results.get_mut(vote).unwrap()` never panics. -/
theorem claim10_no_tally_panic (p : Poll α) (hv : ValidPoll p) (k : Nat)
    (s : PollRound α) (hs : stepN k (startRounds p) = some s) :
    (∀ b ∈ s.ballots, ∀ x ∈ b, x ∈ s.candidates) ∧
    nextRound s ≠ RoundStep.panicKey := by
  have hvs := stepN_valid k (startRounds p) s (validState_startRounds p hv) hs
  have hmem : ∀ b ∈ s.ballots, ∀ x ∈ b, x ∈ s.candidates := by
    intro b hb x hx
    exact (hvs.2 b hb).2.1 x hx
  exact ⟨hmem, nextRound_no_panicKey s hmem⟩

/-- C10 witness: the state after one round of a one-ballot poll. -/
theorem claim10_no_tally_panic_witness :
    (∀ b ∈ (PollRound.mk ([0] : List Nat) [[0]] 1).ballots,
      ∀ x ∈ b, x ∈ (PollRound.mk ([0] : List Nat) [[0]] 1).candidates) ∧
    nextRound (PollRound.mk ([0] : List Nat) [[0]] 1) ≠ RoundStep.panicKey :=
  claim10_no_tally_panic (Poll.mk [0, 1] [[0, 1]] [(0, false), (1, false)])
    (by decide) 1 (PollRound.mk [0] [[0]] 1) (by decide)

end RCIR
